import Mathlib

/-!
Verification of the numeric and linear-algebra foundation of the `cora`
machine-learning toolkit: the `Real` number contract (`src/numbers.rs`),
the `BaseVector` contract and its default-method algebra
(`src/linalg/mod.rs`), and the error taxonomy (`src/error/mod.rs`).

The two conforming `Real` implementations (`f64` and `f32`) have textually
identical definitions of `sigmoid` and `ln_1pe` (same thresholds, same
formulas, differing only in precision); both are embedded once over the
mathematical reals `ℝ`, the idealized common semantics of the floating
code. Vectors are embedded as lists of reals: the abstract accessors
`get(i)` / `len()` of the `BaseVector` trait become positional access to a
list, and the default methods are translated line by line.
-/

namespace Cora

/-- Embedding of `<f64 as Real>::sigmoid` and `<f32 as Real>::sigmoid`
(`src/numbers.rs`): `if self < -40. { 0. } else if self > 40. { 1. }
else { 1. / (1. + exp(-self)) }`. -/
noncomputable def sigmoid (x : ℝ) : ℝ :=
  if x < -40 then 0
  else if x > 40 then 1
  else 1 / (1 + Real.exp (-x))

/-- Embedding of `<f64 as Real>::ln_1pe` and `<f32 as Real>::ln_1pe`
(`src/numbers.rs`): `if self > 15. { self } else { self.exp().ln_1p() }`;
`exp` followed by `ln_1p` computes `ln(1 + e^x)`. -/
noncomputable def ln_1pe (x : ℝ) : ℝ :=
  if x > 15 then x
  else Real.log (1 + Real.exp x)

/-- Embedding of the default method `Real::square` (`src/numbers.rs`):
`self * self`. -/
noncomputable def square (x : ℝ) : ℝ := x * x

/-- C1: for both conforming Real implementations and every input x,
`sigmoid(x)` returns exactly 0 when x < -40, exactly 1 when x > 40, and
otherwise is computed directly as 1 / (1 + e^(-x)). -/
theorem sigmoid_policy (x : ℝ) :
    (x < -40 → sigmoid x = 0) ∧
    (x > 40 → sigmoid x = 1) ∧
    (-40 ≤ x → x ≤ 40 → sigmoid x = 1 / (1 + Real.exp (-x))) := by
  refine ⟨fun h => ?_, fun h => ?_, fun h1 h2 => ?_⟩
  · simp [sigmoid, h]
  · rw [sigmoid, if_neg (by linarith), if_pos h]
  · rw [sigmoid, if_neg (by linarith), if_neg (by simpa using h2)]

/-- Witness for C1 at the concrete inputs -41, 41 and 0. -/
theorem sigmoid_policy_witness :
    sigmoid (-41) = 0 ∧ sigmoid 41 = 1 ∧ sigmoid 0 = 1 / (1 + Real.exp (-0)) :=
  ⟨(sigmoid_policy (-41)).1 (by norm_num),
   (sigmoid_policy 41).2.1 (by norm_num),
   (sigmoid_policy 0).2.2 (by norm_num) (by norm_num)⟩

/-- C2: for both Real implementations and every input x, `ln_1pe(x)`
returns x itself when x > 15 and otherwise is computed as ln(1 + e^x). -/
theorem ln_1pe_policy (x : ℝ) :
    (x > 15 → ln_1pe x = x) ∧
    (x ≤ 15 → ln_1pe x = Real.log (1 + Real.exp x)) := by
  refine ⟨fun h => ?_, fun h => ?_⟩
  · rw [ln_1pe, if_pos h]
  · rw [ln_1pe, if_neg (by simpa using h)]

/-- Witness for C2 at the concrete inputs 16 and 0. -/
theorem ln_1pe_policy_witness :
    ln_1pe 16 = 16 ∧ ln_1pe 0 = Real.log (1 + Real.exp 0) :=
  ⟨(ln_1pe_policy 16).1 (by norm_num),
   (ln_1pe_policy 0).2 (by norm_num)⟩

/-- C5: for both Real implementations and every finite input x,
`sigmoid(x)` lies in the closed interval `[0, 1]`, and `sigmoid(0)` equals
exactly 0.5. -/
theorem sigmoid_range_and_half :
    (∀ x : ℝ, 0 ≤ sigmoid x ∧ sigmoid x ≤ 1) ∧ sigmoid 0 = 0.5 := by
  constructor
  · intro x
    rw [sigmoid]
    split
    · norm_num
    · split
      · norm_num
      · have hpos : 0 < Real.exp (-x) := Real.exp_pos _
        constructor
        · positivity
        · rw [div_le_one (by linarith)]
          linarith
  · rw [sigmoid, if_neg (by norm_num), if_neg (by norm_num)]
    rw [neg_zero, Real.exp_zero]
    norm_num

/-- Product of an exponential with the exponential of the negation. -/
lemma exp_mul_exp_neg (a : ℝ) : Real.exp a * Real.exp (-a) = 1 := by
  rw [← Real.exp_add]
  simp

/-- The softplus overshoot at the threshold: `exp (-16)` is strictly below
`log (1 + exp (-15))`. -/
lemma exp_neg_sixteen_lt_log : Real.exp (-16) < Real.log (1 + Real.exp (-15)) := by
  have hs : (0:ℝ) < Real.exp (-16) := Real.exp_pos _
  have hb : (0:ℝ) < Real.exp (-15) := Real.exp_pos _
  have hb1 : Real.exp (-15) < 1 := by
    calc Real.exp (-15) < Real.exp 0 := Real.exp_lt_exp.2 (by norm_num)
    _ = 1 := Real.exp_zero
  have hs1 : Real.exp (-16) < 1 := by
    calc Real.exp (-16) < Real.exp 0 := Real.exp_lt_exp.2 (by norm_num)
    _ = 1 := Real.exp_zero
  have hbs : Real.exp (-15) = Real.exp (-16) * Real.exp 1 := by
    rw [← Real.exp_add]
    norm_num
  have he : (2.7182818283 : ℝ) < Real.exp 1 := Real.exp_one_gt_d9
  -- Step A: exp s ≤ 1 / (1 - s) for s = exp (-16)
  have hA : Real.exp (Real.exp (-16)) * (1 - Real.exp (-16)) ≤ 1 := by
    have h1 : 1 - Real.exp (-16) ≤ Real.exp (-(Real.exp (-16))) := by
      have := Real.add_one_le_exp (-(Real.exp (-16)))
      linarith
    calc Real.exp (Real.exp (-16)) * (1 - Real.exp (-16))
        ≤ Real.exp (Real.exp (-16)) * Real.exp (-(Real.exp (-16))) := by
          apply mul_le_mul_of_nonneg_left h1 (le_of_lt (Real.exp_pos _))
    _ = 1 := exp_mul_exp_neg _
  -- Step B: 1 < (1 + exp (-15)) * (1 - exp (-16))
  have hB : 1 < (1 + Real.exp (-15)) * (1 - Real.exp (-16)) := by
    nlinarith [hs, hb, hb1, hbs, he]
  -- combine: exp (exp (-16)) < 1 + exp (-15)
  have hC : Real.exp (Real.exp (-16)) < 1 + Real.exp (-15) := by
    have h1s : (0:ℝ) < 1 - Real.exp (-16) := by linarith
    nlinarith [hA, hB]
  have hpos : (0:ℝ) < 1 + Real.exp (-15) := by linarith
  exact (Real.lt_log_iff_exp_lt hpos).2 hC

/-- Splitting the logarithm at the threshold:
`log (1 + exp 15) = 15 + log (1 + exp (-15))`. -/
lemma log_one_add_exp_fifteen :
    Real.log (1 + Real.exp 15) = 15 + Real.log (1 + Real.exp (-15)) := by
  have hsplit : 1 + Real.exp 15 = Real.exp 15 * (1 + Real.exp (-15)) := by
    rw [mul_add, mul_one, exp_mul_exp_neg 15, add_comm]
  rw [hsplit, Real.log_mul (ne_of_gt (Real.exp_pos _)) (by positivity),
    Real.log_exp]

/-- C3 counterexample: at the concrete pair x = 15, y = 15 + e^(-16) we
have x ≤ y but `ln_1pe x > ln_1pe y`: `ln_1pe` is not monotone across the
threshold at 15. -/
theorem ln_1pe_monotone_counterexample :
    (15 : ℝ) ≤ 15 + Real.exp (-16) ∧
      ¬ ln_1pe 15 ≤ ln_1pe (15 + Real.exp (-16)) := by
  have hs : (0:ℝ) < Real.exp (-16) := Real.exp_pos _
  constructor
  · linarith
  · have h15 : ln_1pe 15 = Real.log (1 + Real.exp 15) := by
      rw [ln_1pe, if_neg (by norm_num)]
    have hy : ln_1pe (15 + Real.exp (-16)) = 15 + Real.exp (-16) := by
      rw [ln_1pe, if_pos (by linarith)]
    rw [h15, hy, log_one_add_exp_fifteen]
    push_neg
    have := exp_neg_sixteen_lt_log
    linarith

/-- C3 amended: `ln_1pe` is monotone on either side of the threshold: for
x ≤ y with both on the same side of 15 (y ≤ 15, or 15 < x), we have
`ln_1pe x ≤ ln_1pe y`. -/
theorem ln_1pe_monotone_same_side (x y : ℝ) (hxy : x ≤ y)
    (h : y ≤ 15 ∨ 15 < x) : ln_1pe x ≤ ln_1pe y := by
  rcases h with h | h
  · have hx : ¬ x > 15 := by push_neg; linarith
    have hy : ¬ y > 15 := by push_neg; linarith
    rw [ln_1pe, if_neg hx, ln_1pe, if_neg hy]
    have hexp : Real.exp x ≤ Real.exp y := Real.exp_le_exp.2 hxy
    gcongr
  · have hx : x > 15 := h
    have hy : y > 15 := lt_of_lt_of_le h hxy
    rw [ln_1pe, if_pos hx, ln_1pe, if_pos hy]
    exact hxy

/-- Witness for the amended C3 at the concrete pair x = 0, y = 1. -/
theorem ln_1pe_monotone_same_side_witness :
    (0:ℝ) ≤ 1 ∧ ((1:ℝ) ≤ 15 ∨ 15 < (0:ℝ)) ∧ ln_1pe 0 ≤ ln_1pe 1 :=
  ⟨by norm_num, Or.inl (by norm_num),
    ln_1pe_monotone_same_side 0 1 (by norm_num) (Or.inl (by norm_num))⟩

/-- Embedding of the loop body of `BaseVector::var` (src/linalg/mod.rs):
`for i in 0..n { let xi = self.get(i); mu += xi; sum += xi * xi; }` — a
single left-to-right pass simultaneously accumulating the running sum of
elements and the running sum of squared elements. -/
noncomputable def varPass (v : List ℝ) : ℝ × ℝ :=
  v.foldl (fun p xi => (p.1 + xi, p.2 + xi * xi)) ((0 : ℝ), (0 : ℝ))

/-- Embedding of the default method `BaseVector::var` (src/linalg/mod.rs):
after the accumulation pass, `mu /= div; sum / div - mu * mu` with
`div = n` the length. -/
noncomputable def var (v : List ℝ) : ℝ :=
  let div : ℝ := (v.length : ℝ)
  let p := varPass v
  let mu := p.1 / div
  p.2 / div - mu * mu

/-- Embedding of the default method `BaseVector::mean` (src/linalg/mod.rs):
`self.sum() / from_usize(self.len())`. -/
noncomputable def mean (v : List ℝ) : ℝ :=
  v.sum / (v.length : ℝ)

/-- The one-pass accumulator from a general initial state yields the sum and
the sum of squares added to the initial values. -/
lemma varPass_foldl (v : List ℝ) : ∀ a b : ℝ,
    v.foldl (fun p xi => (p.1 + xi, p.2 + xi * xi)) (a, b)
      = (a + v.sum, b + (v.map fun x => x * x).sum) := by
  induction v with
  | nil => intro a b; simp
  | cons x xs ih =>
    intro a b
    simp only [List.foldl_cons, List.map_cons, List.sum_cons]
    rw [ih]
    simp only [Prod.mk.injEq]
    exact ⟨by ring, by ring⟩

/-- C4: `var` is computed by a single pass that simultaneously accumulates
the sum and the sum of squares, and returns (sum of squares)/n minus
((sum)/n) squared. -/
theorem var_one_pass (v : List ℝ) :
    varPass v = (v.sum, (v.map fun x => x * x).sum) ∧
    var v = (v.map fun x => x * x).sum / (v.length : ℝ)
      - (v.sum / (v.length : ℝ)) * (v.sum / (v.length : ℝ)) := by
  have h : varPass v = (v.sum, (v.map fun x => x * x).sum) := by
    rw [varPass]
    simpa using varPass_foldl v 0 0
  refine ⟨h, ?_⟩
  simp only [var, h]

/-- Modelled from the spec: the required trait method `BaseVector::add_mut`
has no implementation under src (it is abstract); per the spec it adds the
vectors element-wise, overriding the receiver with the result. -/
noncomputable def add_mut (self other : List ℝ) : List ℝ :=
  List.zipWith (fun a b => a + b) self other

/-- Modelled from the spec: `BaseVector::sub_mut`, element-wise subtraction
into the receiver. -/
noncomputable def sub_mut (self other : List ℝ) : List ℝ :=
  List.zipWith (fun a b => a - b) self other

/-- Modelled from the spec: `BaseVector::mul_mut`, element-wise
multiplication into the receiver. -/
noncomputable def mul_mut (self other : List ℝ) : List ℝ :=
  List.zipWith (fun a b => a * b) self other

/-- Modelled from the spec: `BaseVector::div_mut`, element-wise division
into the receiver. -/
noncomputable def div_mut (self other : List ℝ) : List ℝ :=
  List.zipWith (fun a b => a / b) self other

/-- Embedding of the default method `BaseVector::add` (src/linalg/mod.rs):
`let mut r = self.clone(); r.add_mut(other); r` — the receiver is cloned
and only the clone is mutated. -/
noncomputable def add (self other : List ℝ) : List ℝ :=
  let r := self
  add_mut r other

/-- Embedding of the default method `BaseVector::sub` (src/linalg/mod.rs). -/
noncomputable def sub (self other : List ℝ) : List ℝ :=
  let r := self
  sub_mut r other

/-- Embedding of the default method `BaseVector::mul` (src/linalg/mod.rs). -/
noncomputable def mul (self other : List ℝ) : List ℝ :=
  let r := self
  mul_mut r other

/-- Embedding of the default method `BaseVector::div` (src/linalg/mod.rs). -/
noncomputable def div (self other : List ℝ) : List ℝ :=
  let r := self
  div_mut r other

/-- Positional access into a zipWith of two lists. -/
lemma zipWith_getD (f : ℝ → ℝ → ℝ) :
    ∀ (v w : List ℝ) (i : Nat), i < v.length → i < w.length →
      (List.zipWith f v w).getD i 0 = f (v.getD i 0) (w.getD i 0) := by
  intro v
  induction v with
  | nil =>
    intro w i h1 _
    simp at h1
  | cons x xs ih =>
    intro w i h1 h2
    cases w with
    | nil => simp at h2
    | cons y ys =>
      cases i with
      | zero => simp [List.getD]
      | succ n =>
        simp only [List.zipWith_cons_cons, List.getD_cons_succ]
        exact ih ys n (by simpa using h1) (by simpa using h2)

/-- C6: for equal-length vectors, each pure element-wise operation equals
the corresponding `_mut` operation applied to a clone of the receiver,
preserves the length, and computes the element-wise result; the receiver
and the argument are never written (the pure embedding passes them by
value). -/
theorem pure_ops_refine_mut (v w : List ℝ) (h : v.length = w.length) :
    (add v w = add_mut v w ∧ sub v w = sub_mut v w ∧
     mul v w = mul_mut v w ∧ div v w = div_mut v w) ∧
    (add v w).length = v.length ∧ (sub v w).length = v.length ∧
    (mul v w).length = v.length ∧ (div v w).length = v.length ∧
    ∀ i, i < v.length →
      (add v w).getD i 0 = v.getD i 0 + w.getD i 0 ∧
      (sub v w).getD i 0 = v.getD i 0 - w.getD i 0 ∧
      (mul v w).getD i 0 = v.getD i 0 * w.getD i 0 ∧
      (div v w).getD i 0 = v.getD i 0 / w.getD i 0 := by
  refine ⟨⟨rfl, rfl, rfl, rfl⟩, ?_, ?_, ?_, ?_, ?_⟩
  · simp [add, add_mut, h]
  · simp [sub, sub_mut, h]
  · simp [mul, mul_mut, h]
  · simp [div, div_mut, h]
  · intro i hi
    have hi2 : i < w.length := h ▸ hi
    exact ⟨zipWith_getD _ v w i hi hi2, zipWith_getD _ v w i hi hi2,
      zipWith_getD _ v w i hi hi2, zipWith_getD _ v w i hi hi2⟩

/-- Witness for C6 at the concrete vectors [1, 2] and [3, 4]. -/
theorem pure_ops_refine_mut_witness :
    ([1, 2] : List ℝ).length = ([3, 4] : List ℝ).length ∧
    add [1, 2] [3, 4] = add_mut [1, 2] [3, 4] ∧
    (add [1, 2] [3, 4]).getD 0 0 = (1 : ℝ) + 3 := by
  have h : ([1, 2] : List ℝ).length = ([3, 4] : List ℝ).length := rfl
  have H := pure_ops_refine_mut [1, 2] [3, 4] h
  exact ⟨h, H.1.1, (H.2.2.2.2.2 0 (by norm_num)).1⟩

/-- Embedding of the enum `FailedError` (src/error/mod.rs): a closed set of
six failure kinds. -/
inductive FailedError where
  | FitFailed
  | PredictFailed
  | TransformFailed
  | FindFailed
  | DecompositionFailed
  | SolutionFailed
deriving DecidableEq

/-- Embedding of the discriminant values of `FailedError`
(src/error/mod.rs): `FitFailed = 1` is explicit and the remaining variants
take the successive values, so its `as u8` cast yields 1 through 6. -/
def FailedError.discriminant : FailedError → Nat
  | .FitFailed => 1
  | .PredictFailed => 2
  | .TransformFailed => 3
  | .FindFailed => 4
  | .DecompositionFailed => 5
  | .SolutionFailed => 6

/-- Embedding of `PartialEq for FailedError` (src/error/mod.rs):
`*self as u8 == *rhs as u8`. -/
def FailedError.beq (a b : FailedError) : Bool :=
  a.discriminant == b.discriminant

/-- Embedding of the struct `Failure` (src/error/mod.rs): a failure kind
together with a human-readable message. -/
structure Failure where
  err : FailedError
  msg : String
deriving DecidableEq

/-- Embedding of `PartialEq for Failure` (src/error/mod.rs):
`self.err == rhs.err && self.msg == rhs.msg`. -/
def Failure.beq (a b : Failure) : Bool :=
  FailedError.beq a.err b.err && a.msg == b.msg

/-- Embedding of the constructor `Failure::fit` (src/error/mod.rs). -/
def Failure.fit (msg : String) : Failure :=
  { err := FailedError.FitFailed, msg := msg }

/-- Embedding of the constructor `Failure::predict` (src/error/mod.rs). -/
def Failure.predict (msg : String) : Failure :=
  { err := FailedError.PredictFailed, msg := msg }

/-- Embedding of the constructor `Failure::transform` (src/error/mod.rs). -/
def Failure.transform (msg : String) : Failure :=
  { err := FailedError.TransformFailed, msg := msg }

/-- Embedding of the constructor `Failure::because` (src/error/mod.rs). -/
def Failure.because (err : FailedError) (msg : String) : Failure :=
  { err := err, msg := msg }

/-- The discriminant-based equality of failure kinds coincides with
structural equality of the variants. -/
lemma FailedError.beq_iff (a b : FailedError) :
    FailedError.beq a b = true ↔ a = b := by
  cases a <;> cases b <;> simp [FailedError.beq, FailedError.discriminant]

/-- C7: equality of Failure values is structural — true exactly when both
the kinds and the messages match; in particular `fit "x"` equals
`fit "x"` and differs from `predict "x"`. -/
theorem failure_eq_structural :
    (∀ a b : Failure, Failure.beq a b = true ↔ a.err = b.err ∧ a.msg = b.msg) ∧
    Failure.beq (Failure.fit "x") (Failure.fit "x") = true ∧
    Failure.beq (Failure.fit "x") (Failure.predict "x") = false := by
  refine ⟨fun a b => ?_, by decide, by decide⟩
  rw [Failure.beq, Bool.and_eq_true, FailedError.beq_iff, beq_iff_eq]

/-- C8: the six FailedError kinds carry the stable ordinal values 1
through 6 in declaration order. -/
theorem failedError_ordinals :
    FailedError.discriminant .FitFailed = 1 ∧
    FailedError.discriminant .PredictFailed = 2 ∧
    FailedError.discriminant .TransformFailed = 3 ∧
    FailedError.discriminant .FindFailed = 4 ∧
    FailedError.discriminant .DecompositionFailed = 5 ∧
    FailedError.discriminant .SolutionFailed = 6 := by
  decide

/-- Model of the Rust cast `as u32` applied to a 64-bit unsigned value:
truncation to the low 32 bits. -/
def u32_cast (x : Nat) : Nat := x % 4294967296

/-- Embedding of `<f64 as Real>::to_f32_bits` (src/numbers.rs):
`self.to_bits() as u32`. A double-precision value is represented here by
its 64-bit IEEE bit pattern, on which `to_bits` is the identity. -/
def f64_to_f32_bits (bits : Nat) : Nat := u32_cast bits

/-- Embedding of `<f32 as Real>::to_f32_bits` (src/numbers.rs):
`self.to_bits()`. A single-precision value is represented here by its
32-bit IEEE bit pattern, on which `to_bits` is the identity. -/
def f32_to_f32_bits (bits : Nat) : Nat := bits

/-- C9: `to_f32_bits` returns the raw bit pattern truncated to 32 bits —
for the double-precision implementation the 64-bit pattern reduced modulo
2^32 (always below 2^32), and for the single-precision implementation the
exact 32-bit pattern unchanged. -/
theorem to_f32_bits_spec :
    (∀ bits : Nat, f64_to_f32_bits bits = bits % 2 ^ 32 ∧
      f64_to_f32_bits bits < 2 ^ 32) ∧
    (∀ bits : Nat, f32_to_f32_bits bits = bits) := by
  refine ⟨fun bits => ⟨?_, ?_⟩, fun bits => rfl⟩
  · show bits % 4294967296 = bits % 2 ^ 32
    norm_num
  · exact Nat.mod_lt _ (by norm_num)

/-- Value domain for the totality analysis of `mean` and `var`: a floating
value is either NaN or a finite number (modeled exactly by a rational).
Divisions by zero never yield a finite value; following the claim's own
reading, the non-finite results of `0/0` and `x/0` are both collapsed into
the `nan` constructor (only `0/0`, a genuine NaN, occurs in the theorems
below). -/
inductive FVal where
  | nan
  | fin (x : ℚ)
deriving DecidableEq

/-- Floating addition on the finite-or-NaN fragment: NaN propagates. -/
def FVal.add : FVal → FVal → FVal
  | .fin a, .fin b => .fin (a + b)
  | _, _ => .nan

/-- Floating subtraction on the finite-or-NaN fragment: NaN propagates. -/
def FVal.sub : FVal → FVal → FVal
  | .fin a, .fin b => .fin (a - b)
  | _, _ => .nan

/-- Floating multiplication on the finite-or-NaN fragment: NaN
propagates. -/
def FVal.mul : FVal → FVal → FVal
  | .fin a, .fin b => .fin (a * b)
  | _, _ => .nan

/-- Floating division on the finite-or-NaN fragment: NaN propagates and a
zero divisor never produces a finite value. -/
def FVal.div : FVal → FVal → FVal
  | .fin a, .fin b => if b = 0 then .nan else .fin (a / b)
  | _, _ => .nan

/-- Model of `num_traits::FromPrimitive::from_usize` for f64 and f32
(`T::from_usize` in src/linalg/mod.rs): the conversion of an unsigned
length to a float always succeeds, so it always returns `Some`. -/
def from_usize (n : Nat) : Option FVal := some (.fin n)

/-- Modelled from the spec: the required trait method `BaseVector::sum`
has no implementation under src; per the spec it is the arithmetic sum of
all elements, taken left to right. -/
def sumF (v : List FVal) : FVal :=
  v.foldl FVal.add (.fin 0)

/-- Embedding of the default method `BaseVector::mean` (src/linalg/mod.rs)
over the finite-or-NaN fragment:
`self.sum() / T::from_usize(self.len()).unwrap()`. The outer `Option` is
the panic channel of `unwrap`: `none` means the method aborts. -/
def meanF (v : List FVal) : Option FVal :=
  (from_usize v.length).map fun d => FVal.div (sumF v) d

/-- Embedding of the default method `BaseVector::var` (src/linalg/mod.rs)
over the finite-or-NaN fragment: the one-pass accumulation of `Σx` and
`Σx²`, then `mu /= div; sum / div - mu * mu`. The outer `Option` is the
panic channel of `unwrap` on `T::from_usize(n)`. -/
def varF (v : List FVal) : Option FVal :=
  (from_usize v.length).map fun d =>
    let p := v.foldl
      (fun q xi => (FVal.add q.1 xi, FVal.add q.2 (FVal.mul xi xi)))
      (FVal.fin 0, FVal.fin 0)
    let mu := FVal.div p.1 d
    FVal.sub (FVal.div p.2 d) (FVal.mul mu mu)

/-- C10: `mean` and `var` are total over every vector length including
zero: `from_usize` always succeeds so the `unwrap` never aborts, and on
the empty vector both operations return NaN (from a 0/0 division) rather
than panicking. -/
theorem mean_var_total :
    (∀ n : Nat, (from_usize n).isSome = true) ∧
    (∀ v : List FVal, (meanF v).isSome = true ∧ (varF v).isSome = true) ∧
    meanF [] = some .nan ∧ varF [] = some .nan := by
  refine ⟨fun n => rfl, fun v => ⟨?_, ?_⟩, by decide, by decide⟩
  · simp [meanF, from_usize]
  · simp [varF, from_usize]

end Cora
